import Mathlib

/-!
# Verification of the lipi hybrid markdown editing engine

Shallow embedding of the canonical contenteditable-based
`HybridMarkdownEditor` (escaping, per-line markdown cue rendering to an
HTML string, the caret walks over the parsed rendered tree, the Enter
handler, the external value-sync effect, the autosave-recovery mount
effect, and the debounced autosave scheduler), together with the line
model used by the textarea variant (`value.split('\n')` / `join('\n')`).

Documents and HTML strings are modelled as `List Char`; JavaScript string
operations (`split`, `slice`, regex replaces) are translated operationally.
-/

set_option maxRecDepth 10000

namespace Lipi

/-- Strings are modelled as lists of characters. -/
abbrev Str := List Char

/-- Convert a Lean string literal into the `List Char` model. -/
def str (s : String) : Str := s.data

/-- The single-quote character (used as the HTML attribute delimiter in the
markup that the renderer emits). -/
def sq : Char := Char.ofNat 39

/-- The backtick character (inline-code delimiter). -/
def tickC : Char := Char.ofNat 96

/-- The `<` character. -/
def ltC : Char := '<'

/-! ## Line model

The textarea variant keeps `lines = value.split('\n')` and writes back
`lines.join('\n')`.  JavaScript `split` on the one-character separator
`'\n'` preserves empty segments and maps `""` to `[""]`. -/

/-- Prepend a character to the first line of a line list (helper for
`splitLines`); a JavaScript `split` result is never empty. -/
def consHead (c : Char) : List Str → List Str
  | [] => [[c]]
  | l :: ls => (c :: l) :: ls

/-- JavaScript `s.split('\n')`: divide on newlines, preserving empty
segments; the empty string yields one empty segment. -/
def splitLines : Str → List Str
  | [] => [[]]
  | c :: r => if c = '\n' then [] :: splitLines r else consHead c (splitLines r)

/-- JavaScript `lines.join('\n')`. -/
def joinLines : List Str → Str
  | [] => []
  | [l] => l
  | l :: ls => l ++ '\n' :: joinLines ls

theorem splitLines_ne_nil (s : Str) : splitLines s ≠ [] := by
  cases s with
  | nil => simp [splitLines]
  | cons c r =>
    simp only [splitLines]
    split
    · simp
    · cases h : splitLines r with
      | nil => simp [consHead]
      | cons l ls => simp [consHead]

theorem joinLines_consHead (c : Char) (ls : List Str) (h : ls ≠ []) :
    joinLines (consHead c ls) = c :: joinLines ls := by
  cases ls with
  | nil => exact absurd rfl h
  | cons l ls' =>
    cases ls' with
    | nil => simp [consHead, joinLines]
    | cons l2 ls2 => simp [consHead, joinLines]

theorem joinLines_cons (l : Str) (ls : List Str) (h : ls ≠ []) :
    joinLines (l :: ls) = l ++ '\n' :: joinLines ls := by
  cases ls with
  | nil => exact absurd rfl h
  | cons l2 ls2 => simp [joinLines]

/-- Round-trip law of the line model: joining the split of any string
returns the string unchanged. -/
theorem joinLines_splitLines (s : Str) : joinLines (splitLines s) = s := by
  induction s with
  | nil => simp [splitLines, joinLines]
  | cons c r ih =>
    simp only [splitLines]
    by_cases hc : c = '\n'
    · subst hc
      rw [if_pos rfl, joinLines_cons _ _ (splitLines_ne_nil r), ih]
      rfl
    · rw [if_neg hc, joinLines_consHead c _ (splitLines_ne_nil r), ih]

/-- A trailing newline produces a trailing empty line. -/
theorem splitLines_trailing (s : Str) :
    splitLines (s ++ ['\n']) = splitLines s ++ [[]] := by
  induction s with
  | nil => simp [splitLines]
  | cons c r ih =>
    simp only [List.cons_append, splitLines]
    by_cases hc : c = '\n'
    · simp [hc, ih]
    · rw [if_neg hc, if_neg hc, List.append_eq, ih]
      cases h : splitLines r with
      | nil => exact absurd h (splitLines_ne_nil r)
      | cons l ls => simp [consHead]

/-! ## Markdown cue renderer

`renderMarkdownLine` renders one line to an HTML string: a heading line
(`/^#\s/`) becomes a hash span plus a styled text span; otherwise the
bold regex replace (`/\*\*(.+?)\*\*/g`) runs first and the inline-code
replace (`` /`([^`]+)`/g ``) runs second, on the string the bold replace
produced.  `markdownToHTML` joins the rendered lines with `<br>`. -/

/-- Per-character replacement table of `escapeHTML` for the five
markup-significant characters. -/
def escapeChar (c : Char) : Str :=
  if c = '&' then str "&amp;"
  else if c = ltC then str "&lt;"
  else if c = '>' then str "&gt;"
  else if c = '"' then str "&quot;"
  else if c = sq then str "&#39;"
  else [c]

/-- `escapeHTML(str)`: replace each markup-significant character. -/
def escapeHTML (s : Str) : Str := s.foldr (fun c acc => escapeChar c ++ acc) []

/-- JavaScript `\s` (the whitespace class used by the heading test). -/
def isJsSpace (c : Char) : Bool :=
  c = ' ' || c = '\t' || c = '\n' || c = '\r' ||
  c = Char.ofNat 11 || c = Char.ofNat 12 || c = Char.ofNat 160

/-- The heading test `/^#\s/.test(line)`. -/
def isHeadingLine : Str → Bool
  | c :: c2 :: _ => c = '#' && isJsSpace c2
  | _ => false

/-- First match of `/\*\*/` (two consecutive asterisks) in a string:
returns the part before the pair and the part after it. -/
def splitAtDouble : Str → Option (Str × Str)
  | x :: y :: r =>
    if x = '*' ∧ y = '*' then some ([], r)
    else (splitAtDouble (y :: r)).map (fun p => (x :: p.1, p.2))
  | _ => none

/-- After an opening `**`, the lazy `(.+?)` takes at least one character,
so the closing `**` is the first asterisk pair starting at offset ≥ 1:
returns the captured text and the remainder after the closing pair. -/
def closeSplit : Str → Option (Str × Str)
  | [] => none
  | x :: r => (splitAtDouble r).map (fun p => (x :: p.1, p.2))

/-- Leftmost match of `/\*\*(.+?)\*\*/`: returns
`(prefixText, capture, rest)`.  When an opening pair has no closing pair
the scan advances one character, as the regex engine does. -/
def boldScan : Str → Option (Str × Str × Str)
  | [] => none
  | c :: r =>
    if c = '*' then
      match r with
      | r1 :: r2 =>
        if r1 = '*' then
          match closeSplit r2 with
          | some (cap, rest) => some ([], cap, rest)
          | none => (boldScan r).map (fun t => (c :: t.1, t.2.1, t.2.2))
        else (boldScan r).map (fun t => (c :: t.1, t.2.1, t.2.2))
      | [] => none
    else (boldScan r).map (fun t => (c :: t.1, t.2.1, t.2.2))

/-- Take the characters of `s` up to the first occurrence of `c`; returns
them together with the remainder after `c`, or `none` when `c` is absent. -/
def takeUntil (c : Char) : Str → Option (Str × Str)
  | [] => none
  | x :: r =>
    if x = c then some ([], r)
    else (takeUntil c r).map (fun p => (x :: p.1, p.2))

/-- Leftmost match of `` /`([^`]+)`/ ``: an opening backtick, at least one
non-backtick character, and a closing backtick. -/
def codeScan : Str → Option (Str × Str × Str)
  | [] => none
  | c :: r =>
    if c = tickC then
      match takeUntil tickC r with
      | some (cap, rest) =>
        if cap = [] then (codeScan r).map (fun t => (c :: t.1, t.2.1, t.2.2))
        else some ([], cap, rest)
      | none => none
    else (codeScan r).map (fun t => (c :: t.1, t.2.1, t.2.2))

/-- The opening `<tag style=S>` markup with single-quoted style. -/
def openTag (tag style : Str) : Str :=
  ltC :: tag ++ str " style=" ++ sq :: style ++ [sq, '>']

/-- `</tag>`. -/
def closeTag (tag : Str) : Str := str "</" ++ tag ++ str ">"

/-- Style of the faded inline markers (`**` spans and the empty spans
around inline code). -/
def cueStyle : Str := str "opacity:0.5;color:#94a3b8;user-select:none;"

/-- A faded marker span around `t`. -/
def cueSpan (t : Str) : Str := openTag (str "span") cueStyle ++ t ++ closeTag (str "span")

/-- Hash style when the heading line is active (faded but visible). -/
def hashStyleActive : Str :=
  str "opacity:0.5;color:#94a3b8;user-select:none;display:inline-block;width:1ch;"

/-- Hash style when the heading line is inactive (hidden, zero width). -/
def hashStyleInactive : Str :=
  str "opacity:0;visibility:hidden;user-select:none;display:inline-block;width:0;"

/-- Style of the heading text span. -/
def headingTextStyle : Str := str "font-weight:700;font-size:1.3em;"

/-- Style of the strong element. -/
def strongStyle : Str := str "font-weight:800;"

/-- Style of the code element. -/
def codeStyle : Str := str "background:#f1f5f9;padding:2px 4px;border-radius:4px;"

/-- The replacement emitted for one bold match. -/
def boldMarkup (isActive : Bool) (cap : Str) : Str :=
  let strongPart := openTag (str "strong") strongStyle ++ cap ++ closeTag (str "strong")
  if isActive then cueSpan (str "**") ++ strongPart ++ cueSpan (str "**")
  else strongPart

/-- The replacement emitted for one inline-code match; note the marker
spans emitted in the active case are empty and the content is escaped. -/
def codeMarkup (isActive : Bool) (cap : Str) : Str :=
  let codePart := openTag (str "code") codeStyle ++ escapeHTML cap ++ closeTag (str "code")
  if isActive then cueSpan [] ++ codePart ++ cueSpan []
  else codePart

/-- Global bold replace, fuelled (the scan consumes at least four
characters per match, so fuel `s.length` always suffices). -/
def replaceBoldF : Nat → Bool → Str → Str
  | 0, _, s => s
  | n + 1, isActive, s =>
    match boldScan s with
    | none => s
    | some (p, cap, rest) => p ++ boldMarkup isActive cap ++ replaceBoldF n isActive rest

/-- JavaScript `line.replace(/\*\*(.+?)\*\*/g, ...)`. -/
def replaceBold (isActive : Bool) (s : Str) : Str := replaceBoldF s.length isActive s

/-- Global inline-code replace, fuelled. -/
def replaceCodeF : Nat → Bool → Str → Str
  | 0, _, s => s
  | n + 1, isActive, s =>
    match codeScan s with
    | none => s
    | some (p, cap, rest) => p ++ codeMarkup isActive cap ++ replaceCodeF n isActive rest

/-- JavaScript ``line.replace(/`([^`]+)`/g, ...)``. -/
def replaceCode (isActive : Bool) (s : Str) : Str := replaceCodeF s.length isActive s

/-- `renderMarkdownLine(line, isActive)`: heading branch, otherwise bold
replace followed by the inline-code replace on its output. -/
def renderMarkdownLine (line : Str) (isActive : Bool) : Str :=
  if isHeadingLine line then
    let hashStyle := if isActive then hashStyleActive else hashStyleInactive
    openTag (str "span") hashStyle ++ str "#" ++ closeTag (str "span") ++
      openTag (str "span") headingTextStyle ++ line.drop 1 ++ closeTag (str "span")
  else
    replaceCode isActive (replaceBold isActive line)

/-- Render every line, tracking the line index (`idx === activeLineIdx`). -/
def renderAll : List Str → Nat → Nat → List Str
  | [], _, _ => []
  | l :: ls, i, act => renderMarkdownLine l (i = act) :: renderAll ls (i + 1) act

/-- JavaScript `lines.join('<br>')`. -/
def brJoin : List Str → Str
  | [] => []
  | [l] => l
  | l :: ls => l ++ str "<br>" ++ brJoin ls

/-- `markdownToHTML(text, activeLineIdx)`. -/
def markdownToHTML (text : Str) (activeLineIdx : Nat) : Str :=
  brJoin (renderAll (splitLines text) 0 activeLineIdx)

/-! ## Rendered tree model

The editor assigns the rendered HTML string to `innerHTML`; the browser
parses it into a flat sequence of nodes: text runs, `<br>` elements and
the single-level `<tag style=S>text</tag>` elements the renderer emits.  The
caret code then works on the text nodes of that tree: a text node is a
"cue" node when the style of its parent carries `user-select:none`, and a
heading hash is visually suppressed through `visibility:hidden`. -/

/-- A node of the parsed rendered tree. -/
inductive Node where
  | text (t : Str)
  | br
  | el (tag style inner : Str)
deriving DecidableEq, Repr

/-- Strip `p` from the front of `s`, returning the remainder. -/
def matchPre : Str → Str → Option Str
  | [], s => some s
  | pc :: pr, s =>
    match s with
    | [] => none
    | c :: r => if pc = c then matchPre pr r else none

/-- Split `s` at the first occurrence of the (nonempty) pattern `pat`. -/
def splitSeq (pat : Str) : Str → Option (Str × Str)
  | [] => none
  | c :: r =>
    match matchPre pat (c :: r) with
    | some rest => some ([], rest)
    | none => (splitSeq pat r).map (fun p => (c :: p.1, p.2))

/-- Whether `pat` occurs contiguously in `s`. -/
def containsSeq (pat : Str) : Str → Bool
  | [] => decide (pat = [])
  | c :: r => (matchPre pat (c :: r)).isSome || containsSeq pat r

/-- Parse one element after a `<`: either `br>` or
`tag style=S>inner</tag>` (single-quoted style) for the three tags the renderer emits. -/
def tryEl (tag s : Str) : Option (Node × Str) :=
  match matchPre (tag ++ str " style=" ++ [sq]) s with
  | none => none
  | some r1 =>
    match takeUntil sq r1 with
    | none => none
    | some (style, r2) =>
      match matchPre (str ">") r2 with
      | none => none
      | some r3 =>
        match splitSeq (closeTag tag) r3 with
        | none => none
        | some (inner, r4) => some (.el tag style inner, r4)

/-- Dispatch over the tag shapes the renderer emits. -/
def parseTag (s : Str) : Option (Node × Str) :=
  match matchPre (str "br>") s with
  | some r => some (.br, r)
  | none =>
    match tryEl (str "span") s with
    | some x => some x
    | none =>
      match tryEl (str "strong") s with
      | some x => some x
      | none => tryEl (str "code") s

/-- Merge a character into the leading text run of a node list. -/
def consText (c : Char) : List Node → List Node
  | .text t :: ns => .text (c :: t) :: ns
  | ns => .text [c] :: ns

/-- Fuelled HTML parse (each step consumes at least one character, so
fuel `s.length` suffices; a `<` that opens no recognised element is kept
as literal text). -/
def parseHTMLF : Nat → Str → List Node
  | 0, _ => []
  | _ + 1, [] => []
  | n + 1, c :: rest =>
    if c = ltC then
      match parseTag rest with
      | some (nd, r) => nd :: parseHTMLF n r
      | none => consText ltC (parseHTMLF n rest)
    else consText c (parseHTMLF n rest)

/-- Parse the rendered HTML string into the node sequence. -/
def parseHTML (s : Str) : List Node := parseHTMLF s.length s

/-- A text leaf of the rendered tree: its characters, whether its parent
carries `user-select:none` (skipped by the walk of `setCaretToOffset`) and
whether it carries `visibility:hidden` (visually suppressed). -/
structure Leaf where
  text : Str
  usn : Bool
  hidden : Bool
deriving DecidableEq, Repr

/-- The text leaves of a node sequence: text runs are plain leaves, `<br>`
has no text node, and an element contributes a leaf only when its content
is nonempty (an empty element has no text child). -/
def leavesOfNodes : List Node → List Leaf
  | [] => []
  | .text t :: ns => ⟨t, false, false⟩ :: leavesOfNodes ns
  | .br :: ns => leavesOfNodes ns
  | .el _ style inner :: ns =>
    if inner = [] then leavesOfNodes ns
    else ⟨inner, containsSeq (str "user-select:none") style,
          containsSeq (str "visibility:hidden") style⟩ :: leavesOfNodes ns

/-- Total character count of a leaf list (what `Range.toString` sees:
every text node, styling ignored). -/
def totalLen (leaves : List Leaf) : Nat := (leaves.map (fun lf => lf.text.length)).sum

/-- A caret position in the rendered tree. -/
inductive SelPoint where
  | inNode (pre : List Leaf) (lf : Leaf) (off : Nat)
  | endOfLast
  | unchanged
deriving Repr

/-- The walk of `setCaretToOffset`: visit text leaves in order, skip cue
leaves (`user-select:none` parents), and stop in the first counted leaf
whose cumulative length reaches the offset; `pre` collects every leaf
(skipped ones included) before the chosen one. -/
def walkSet (leaves : List Leaf) (offset : Nat) : Option (List Leaf × Leaf × Nat) :=
  match leaves with
  | [] => none
  | lf :: r =>
    if lf.usn then (walkSet r offset).map (fun t => (lf :: t.1, t.2.1, t.2.2))
    else if offset ≤ lf.text.length then some ([], lf, offset)
    else (walkSet r (offset - lf.text.length)).map (fun t => (lf :: t.1, t.2.1, t.2.2))

/-- `setCaretToOffset` on the parsed tree: the walk above, falling back to
the end of the last child when the walk is exhausted, and leaving the
selection untouched when the element has no children. -/
def setCaretModel (nodes : List Node) (offset : Nat) : SelPoint :=
  match walkSet (leavesOfNodes nodes) offset with
  | some (pre, lf, off) => .inNode pre lf off
  | none => if nodes = [] then .unchanged else .endOfLast

/-- `getCaretCharacterOffsetWithin` at a selection point: the length of
`Range.toString()` over everything before the point, which counts the
text of every leaf — cue and hidden leaves included.  (`unchanged` never
arises in the theorems below; it is mapped to 0.) -/
def getCaretModel (leaves : List Leaf) : SelPoint → Nat
  | .inNode pre _ off => totalLen pre + off
  | .endOfLast => totalLen leaves
  | .unchanged => 0

/-- Set the caret at `offset` in the rendering of `(d, idx)` and read it
back: the composition `toOffset ∘ toSelectionPoint` of the claim. -/
def caretRoundTrip (d : Str) (idx offset : Nat) : Nat :=
  let nodes := parseHTML (markdownToHTML d idx)
  getCaretModel (leavesOfNodes nodes) (setCaretModel nodes offset)

/-- Non-hidden character contribution of one node; a `<br>` separates
two logical lines and counts as the one newline character standing
between them, and the characters of an element count unless its style hides
them with `visibility:hidden`. -/
def nodeCount : Node → Nat
  | .text t => t.length
  | .br => 1
  | .el _ style inner =>
    if containsSeq (str "visibility:hidden") style then 0 else inner.length

/-- Characters carried by non-hidden parts of the rendered fragment. -/
def nonHiddenCount (nodes : List Node) : Nat := (nodes.map nodeCount).sum

/-! ## Edit controller -/

/-- Count of newline characters in a string. -/
def countNl (s : Str) : Nat := s.count '\n'

/-- Result of the Enter handler: the new document, the active line index
passed to `setActiveLineIdx`, and the offset passed to
`setCaretToOffset` (also stored in `lastCaretOffsetRef`). -/
structure EnterResult where
  newDoc : Str
  newActiveIdx : Nat
  caret : Nat
deriving DecidableEq, Repr

/-- `handleKeyDown` on Enter: splice `'\n'` into the document at the
caret offset, recompute the line index from the prefix before the caret
(`before.split('\n').length - 1`), activate the following line, and place
the caret one past the insertion. -/
def handleEnter (doc : Str) (caretOffset : Nat) : EnterResult :=
  let plain := doc.take caretOffset ++ '\n' :: doc.drop caretOffset
  let before := plain.take caretOffset
  let linesBefore := splitLines before
  let currentLineIdx := linesBefore.length - 1
  { newDoc := plain, newActiveIdx := currentLineIdx + 1, caret := caretOffset + 1 }

/-- State read and written by the value-sync effect. -/
structure SyncState where
  currentValue : Str
  lastLoadedValue : Str
  activeLineIdx : Nat
  lastCaretOffset : Nat
deriving DecidableEq, Repr

/-- Observable result of one run of the value-sync effect: the state
afterwards, whether the incoming value was adopted, the document and line
index the surface was re-rendered with, and the offset passed to
`setCaretToOffset`. -/
structure SyncResult where
  state : SyncState
  adopted : Bool
  renderedDoc : Str
  renderedIdx : Nat
  caretTarget : Nat
deriving DecidableEq, Repr

/-- The `[value, activeLineIdx, saveStatus]` effect: when the incoming
`value` differs from the last externally loaded value and is truthy
(non-empty), adopt it — re-render it with the current active line index,
move the caret to its end and record it as both current and last-loaded;
otherwise re-render the current value and restore the saved caret. -/
def valueSyncEffect (value : Str) (s : SyncState) : SyncResult :=
  if value ≠ s.lastLoadedValue ∧ value ≠ [] then
    { state := { s with currentValue := value, lastLoadedValue := value },
      adopted := true, renderedDoc := value, renderedIdx := s.activeLineIdx,
      caretTarget := value.length }
  else
    { state := s, adopted := false, renderedDoc := s.currentValue,
      renderedIdx := s.activeLineIdx, caretTarget := s.lastCaretOffset }

/-- Observable result of the mount effect. -/
structure MountResult where
  adopted : Bool
  doc : Str
  renderedIdx : Option Nat
  caretTarget : Option Nat
  onChangeFired : Option Str
deriving DecidableEq, Repr

/-- The mount-time autosave recovery: `localStorage.getItem` yields
`saved`; when it is present, truthy (non-empty) and differs from the
`value` prop, the snapshot replaces the document, is rendered with line
index 0, the caret moves to its end and `onChange` fires with it. -/
def mountEffect (saved : Option Str) (value : Str) : MountResult :=
  match saved with
  | some s =>
    if s ≠ [] ∧ s ≠ value then
      { adopted := true, doc := s, renderedIdx := some 0,
        caretTarget := some s.length, onChangeFired := some s }
    else
      { adopted := false, doc := value, renderedIdx := none,
        caretTarget := none, onChangeFired := none }
  | none =>
    { adopted := false, doc := value, renderedIdx := none,
      caretTarget := none, onChangeFired := none }

/-! ## Autosave scheduler

`triggerAutoSave` clears the stored timeout handle and arms a fresh
1000 ms timer whose callback writes the captured value to the
`localStorage` slot.  Timers are modelled as `(handle, deadline, value)`
triples; an event trace interleaves `notify` calls with the passage of
time, and due timers fire before a later event is processed.  (The
secondary status-display timeout of the callback only toggles the displayed
status and is outside this model.) -/

/-- Scheduler state: live timers, the stored handle `autosaveTimeout`,
a fresh-handle counter, the persisted slot, and the log of writes. -/
structure SchedState where
  timers : List (Nat × Nat × Str)
  curTimeout : Option Nat
  nextHandle : Nat
  stored : Option Str
  writes : List Str
deriving DecidableEq, Repr

/-- Initial scheduler state. -/
def initSched : SchedState :=
  { timers := [], curTimeout := none, nextHandle := 0, stored := none, writes := [] }

/-- `triggerAutoSave(val)` at time `t`: `clearTimeout` on the stored
handle, then `setTimeout(..., 1000)` and store the new handle. -/
def triggerAutoSave (t : Nat) (val : Str) (s : SchedState) : SchedState :=
  let cleared :=
    match s.curTimeout with
    | some h => s.timers.filter (fun tm => tm.1 ≠ h)
    | none => s.timers
  { timers := cleared ++ [(s.nextHandle, t + 1000, val)],
    curTimeout := some s.nextHandle, nextHandle := s.nextHandle + 1,
    stored := s.stored, writes := s.writes }

/-- Let time reach `t`: every timer due by `t` fires, writing its value
to the persisted slot. -/
def advanceTo (t : Nat) (s : SchedState) : SchedState :=
  let due := s.timers.filter (fun tm => tm.2.1 ≤ t)
  { timers := s.timers.filter (fun tm => ¬ tm.2.1 ≤ t),
    curTimeout := s.curTimeout, nextHandle := s.nextHandle,
    stored := (due.map (fun tm => tm.2.2)).foldl (fun _ v => some v) s.stored,
    writes := s.writes ++ due.map (fun tm => tm.2.2) }

/-- An event of the single-threaded scheduler timeline. -/
inductive SaveEvent where
  | notify (t : Nat) (val : Str)
  | advance (t : Nat)
deriving DecidableEq, Repr

/-- Run an event trace: a `notify` at time `t` first lets every timer due
by `t` fire (the event loop ran them earlier), then calls
`triggerAutoSave`. -/
def runSched : List SaveEvent → SchedState → SchedState
  | [], s => s
  | .notify t v :: es, s => runSched es (triggerAutoSave t v (advanceTo t s))
  | .advance t :: es, s => runSched es (advanceTo t s)

/-! ## Parser lemmas -/

theorem matchPre_len (p : Str) :
    ∀ s r, matchPre p s = some r → r.length ≤ s.length := by
  induction p with
  | nil =>
    intro s r h
    simp only [matchPre, Option.some.injEq] at h
    subst h
    exact le_rfl
  | cons pc pr ih =>
    intro s r h
    cases s with
    | nil => simp [matchPre] at h
    | cons c cs =>
      simp only [matchPre] at h
      by_cases hc : pc = c
      · rw [if_pos hc] at h
        exact le_trans (ih cs r h) (by simp)
      · rw [if_neg hc] at h
        cases h

theorem matchPre_self_append (p b : Str) : matchPre p (p ++ b) = some b := by
  induction p with
  | nil => rfl
  | cons pc pr ih => simp [matchPre, ih]

theorem takeUntil_len (c : Char) :
    ∀ s a b, takeUntil c s = some (a, b) → b.length ≤ s.length := by
  intro s
  induction s with
  | nil => intro a b h; exact absurd h (by rw [takeUntil]; simp)
  | cons x r ih =>
    intro a b h
    rw [takeUntil] at h
    by_cases hx : x = c
    · rw [if_pos hx] at h
      cases h
      simp
    · rw [if_neg hx] at h
      cases hm : takeUntil c r with
      | none => rw [hm] at h; cases h
      | some p =>
        rw [hm] at h
        cases h
        exact le_trans (ih p.1 p.2 (by rw [hm])) (by simp)

theorem splitSeq_len (pat : Str) :
    ∀ s a b, splitSeq pat s = some (a, b) → b.length ≤ s.length := by
  intro s
  induction s with
  | nil => intro a b h; exact absurd h (by rw [splitSeq]; simp)
  | cons c r ih =>
    intro a b h
    rw [splitSeq] at h
    cases hm : matchPre pat (c :: r) with
    | some rest =>
      rw [hm] at h
      cases h
      exact matchPre_len pat _ _ hm
    | none =>
      rw [hm] at h
      cases hs : splitSeq pat r with
      | none => rw [hs] at h; cases h
      | some p =>
        rw [hs] at h
        cases h
        exact le_trans (ih p.1 p.2 (by rw [hs])) (by simp)

theorem tryEl_len (tag s : Str) (nd : Node) (r : Str)
    (h : tryEl tag s = some (nd, r)) : r.length ≤ s.length := by
  rw [tryEl] at h
  cases h1 : matchPre (tag ++ str " style=" ++ [sq]) s with
  | none => simp only [h1] at h; cases h
  | some r1 =>
    simp only [h1] at h
    cases h2 : takeUntil sq r1 with
    | none => simp only [h2] at h; cases h
    | some p2 =>
      obtain ⟨style, r2⟩ := p2
      simp only [h2] at h
      cases h3 : matchPre (str ">") r2 with
      | none => simp only [h3] at h; cases h
      | some r3 =>
        simp only [h3] at h
        cases h4 : splitSeq (closeTag tag) r3 with
        | none => simp only [h4] at h; cases h
        | some p4 =>
          obtain ⟨inner, r4⟩ := p4
          simp only [h4, Option.some.injEq, Prod.mk.injEq] at h
          obtain ⟨-, hr⟩ := h
          subst hr
          calc r4.length ≤ r3.length := splitSeq_len _ _ _ _ h4
            _ ≤ r2.length := matchPre_len _ _ _ h3
            _ ≤ r1.length := takeUntil_len _ _ _ _ h2
            _ ≤ s.length := matchPre_len _ _ _ h1

theorem parseTag_len (s : Str) (nd : Node) (r : Str)
    (h : parseTag s = some (nd, r)) : r.length ≤ s.length := by
  rw [parseTag] at h
  cases h1 : matchPre (str "br>") s with
  | some rb =>
    simp only [h1, Option.some.injEq, Prod.mk.injEq] at h
    obtain ⟨-, hr⟩ := h
    subst hr
    exact matchPre_len _ _ _ h1
  | none =>
    simp only [h1] at h
    cases h2 : tryEl (str "span") s with
    | some x =>
      simp only [h2, Option.some.injEq] at h
      subst h
      exact tryEl_len _ _ _ _ h2
    | none =>
      simp only [h2] at h
      cases h3 : tryEl (str "strong") s with
      | some x =>
        simp only [h3, Option.some.injEq] at h
        subst h
        exact tryEl_len _ _ _ _ h3
      | none =>
        simp only [h3] at h
        exact tryEl_len _ _ _ _ h

theorem parseHTMLF_fuel :
    ∀ n s m, s.length ≤ n → s.length ≤ m → parseHTMLF n s = parseHTMLF m s := by
  intro n
  induction n with
  | zero =>
    intro s m hn _
    have : s = [] := List.length_eq_zero.mp (Nat.le_zero.mp hn)
    subst this
    cases m <;> rfl
  | succ n ih =>
    intro s m hn hm
    cases s with
    | nil => cases m <;> rfl
    | cons c rest =>
      cases m with
      | zero => simp at hm
      | succ m' =>
        have hn' : rest.length ≤ n := by simpa using hn
        have hm' : rest.length ≤ m' := by simpa using hm
        rw [parseHTMLF, parseHTMLF]
        by_cases hc : c = ltC
        · rw [if_pos hc, if_pos hc]
          cases hp : parseTag rest with
          | some x =>
            obtain ⟨nd, r⟩ := x
            have hx : r.length ≤ rest.length := parseTag_len rest nd r hp
            simp only [hp]
            rw [ih r m' (le_trans hx hn') (le_trans hx hm')]
          | none =>
            simp only [hp]
            rw [ih rest m' hn' hm']
        · rw [if_neg hc, if_neg hc, ih rest m' hn' hm']

theorem parseHTML_cons (c : Char) (s : Str) (hc : c ≠ ltC) :
    parseHTML (c :: s) = consText c (parseHTML s) := by
  rw [parseHTML, parseHTML, List.length_cons, parseHTMLF, if_neg hc]

theorem parseHTML_lt (rest : Str) (nd : Node) (r : Str)
    (h : parseTag rest = some (nd, r)) :
    parseHTML (ltC :: rest) = nd :: parseHTML r := by
  rw [parseHTML, parseHTML, List.length_cons, parseHTMLF, if_pos rfl]
  simp only [h]
  rw [parseHTMLF_fuel rest.length r r.length (parseTag_len rest nd r h) le_rfl]

theorem parseHTML_text_append (l b : Str) (hl : ∀ c ∈ l, c ≠ ltC) :
    parseHTML (l ++ b) = l.foldr consText (parseHTML b) := by
  induction l with
  | nil => rfl
  | cons c l ih =>
    rw [List.cons_append, parseHTML_cons c _ (hl c (List.mem_cons_self _ _)),
      ih (fun x hx => hl x (List.mem_cons_of_mem c hx))]
    rfl

theorem parseHTML_br (b : Str) : parseHTML (str "<br>" ++ b) = .br :: parseHTML b := by
  have hshape : str "<br>" ++ b = ltC :: (str "br>" ++ b) := rfl
  have htag : parseTag (str "br>" ++ b) = some (.br, b) := by
    rw [parseTag, matchPre_self_append]
  rw [hshape, parseHTML_lt _ _ _ htag]

/-- The node list does not begin with a text run (so a preceding text run
stays a separate node). -/
def headNotText : List Node → Prop
  | .text _ :: _ => False
  | _ => True

theorem foldr_consText (l : Str) (ns : List Node) (hns : headNotText ns) :
    l.foldr consText ns = if l = [] then ns else .text l :: ns := by
  induction l with
  | nil => simp
  | cons c l ih =>
    rw [List.foldr_cons, ih]
    by_cases hl : l = []
    · rw [if_pos hl, if_neg (by simp)]
      subst hl
      cases ns with
      | nil => rfl
      | cons nd ns' =>
        cases nd with
        | text t => exact absurd hns (by simp [headNotText])
        | br => rfl
        | el tag style inner => rfl
    · rw [if_neg hl, if_neg (by simp)]
      rfl

/-- `if l = [] then [] else [text l]`: the nodes of one plain line. -/
def textOpt (l : Str) : List Node := if l = [] then [] else [.text l]

/-- Expected parse of plain lines joined by `<br>`. -/
def interBrNodes : List Str → List Node
  | [] => []
  | [l] => textOpt l
  | l :: l2 :: ls => textOpt l ++ .br :: interBrNodes (l2 :: ls)

theorem parse_plain_brJoin :
    ∀ lines : List Str, (∀ l ∈ lines, ∀ c ∈ l, c ≠ ltC) →
    parseHTML (brJoin lines) = interBrNodes lines := by
  intro lines
  induction lines with
  | nil => intro _; rfl
  | cons l ls ih =>
    intro h
    cases ls with
    | nil =>
      have : brJoin [l] = l ++ [] := by simp [brJoin]
      rw [this, parseHTML_text_append l [] (h l (List.mem_cons_self _ _))]
      rw [foldr_consText l _ (by simp [headNotText, parseHTML, parseHTMLF])]
      rw [interBrNodes, textOpt]
      by_cases hl : l = [] <;> simp [hl, parseHTML, parseHTMLF]
    | cons l2 ls2 =>
      have hjoin : brJoin (l :: l2 :: ls2) = l ++ (str "<br>" ++ brJoin (l2 :: ls2)) := by
        simp [brJoin]
      rw [hjoin, parseHTML_text_append l _ (h l (List.mem_cons_self _ _)), parseHTML_br,
        ih (fun x hx c hc => h x (List.mem_cons_of_mem l hx) c hc)]
      rw [foldr_consText _ _ (by simp [headNotText])]
      show _ = textOpt l ++ .br :: interBrNodes (l2 :: ls2)
      rw [textOpt]
      by_cases hl : l = [] <;> simp [hl]

/-! ## Plain-document structure lemmas -/

theorem mem_of_mem_splitLines :
    ∀ s : Str, ∀ l ∈ splitLines s, ∀ c ∈ l, c ∈ s := by
  intro s
  induction s with
  | nil =>
    intro l hl c hc
    simp [splitLines] at hl
    subst hl
    cases hc
  | cons a r ih =>
    intro l hl c hc
    rw [splitLines] at hl
    by_cases ha : a = '\n'
    · rw [if_pos ha] at hl
      cases hl with
      | head => cases hc
      | tail _ hl' => exact List.mem_cons_of_mem a (ih l hl' c hc)
    · rw [if_neg ha] at hl
      cases hq : splitLines r with
      | nil => exact absurd hq (splitLines_ne_nil r)
      | cons l0 ls0 =>
        rw [hq, consHead] at hl
        cases hl with
        | head =>
          cases hc with
          | head => exact List.mem_cons_self _ _
          | tail _ hc' =>
            exact List.mem_cons_of_mem a (ih l0 (by rw [hq]; exact List.mem_cons_self _ _) c hc')
        | tail _ hl' =>
          exact List.mem_cons_of_mem a
            (ih l (by rw [hq]; exact List.mem_cons_of_mem l0 hl') c hc)

theorem sum_splitLines (s : Str) :
    ((splitLines s).map List.length).sum + countNl s = s.length := by
  induction s with
  | nil => simp [splitLines, countNl]
  | cons c r ih =>
    rw [splitLines]
    by_cases hc : c = '\n'
    · subst hc
      have hthis : countNl ('\n' :: r) = countNl r + 1 := by
        simp [countNl, List.count_cons]
      rw [if_pos rfl]
      simp only [List.map_cons, List.sum_cons, List.length_cons, List.length_nil]
      omega
    · have hcount : countNl (c :: r) = countNl r := by
        simp [countNl, List.count_cons, hc]
      rw [if_neg hc, hcount]
      cases hq : splitLines r with
      | nil => exact absurd hq (splitLines_ne_nil r)
      | cons l0 ls0 =>
        rw [hq] at ih
        rw [consHead]
        simp only [List.map_cons, List.sum_cons, List.length_cons] at ih ⊢
        omega

theorem leavesOfNodes_textOpt (l : Str) (ns : List Node) :
    leavesOfNodes (textOpt l ++ ns) =
      (if l = [] then [] else [(⟨l, false, false⟩ : Leaf)]) ++ leavesOfNodes ns := by
  by_cases hl : l = [] <;> simp [textOpt, hl, leavesOfNodes]

theorem leaves_interBr_usn :
    ∀ lines : List Str, ∀ lf ∈ leavesOfNodes (interBrNodes lines), lf.usn = false := by
  intro lines
  induction lines with
  | nil => intro lf hlf; cases hlf
  | cons l ls ih =>
    intro lf hlf
    cases ls with
    | nil =>
      rw [interBrNodes] at hlf
      by_cases hl : l = [] <;> simp [textOpt, hl, leavesOfNodes] at hlf
      · rw [hlf]
    | cons l2 ls2 =>
      rw [interBrNodes] at hlf
      rw [leavesOfNodes_textOpt] at hlf
      rw [List.mem_append] at hlf
      cases hlf with
      | inl h1 =>
        by_cases hl : l = [] <;> simp [hl] at h1
        rw [h1]
      | inr h2 =>
        exact ih lf h2

theorem totalLen_append (x y : List Leaf) : totalLen (x ++ y) = totalLen x + totalLen y := by
  simp [totalLen]

theorem totalLen_interBr :
    ∀ lines : List Str,
      totalLen (leavesOfNodes (interBrNodes lines)) = (lines.map List.length).sum := by
  intro lines
  induction lines with
  | nil => rfl
  | cons l ls ih =>
    cases ls with
    | nil =>
      rw [interBrNodes]
      by_cases hl : l = [] <;> simp [textOpt, hl, leavesOfNodes, totalLen]
    | cons l2 ls2 =>
      rw [interBrNodes, leavesOfNodes_textOpt, totalLen_append]
      show _ + totalLen (leavesOfNodes (interBrNodes (l2 :: ls2))) = _
      rw [ih]
      by_cases hl : l = [] <;> simp [hl, totalLen]

theorem nonHiddenCount_append (x y : List Node) :
    nonHiddenCount (x ++ y) = nonHiddenCount x + nonHiddenCount y := by
  simp [nonHiddenCount]

theorem nonHiddenCount_interBr :
    ∀ lines : List Str,
      nonHiddenCount (interBrNodes lines) =
        (lines.map List.length).sum + (lines.length - 1) := by
  intro lines
  induction lines with
  | nil => rfl
  | cons l ls ih =>
    cases ls with
    | nil =>
      rw [interBrNodes]
      by_cases hl : l = [] <;> simp [textOpt, hl, nonHiddenCount, nodeCount]
    | cons l2 ls2 =>
      rw [interBrNodes, nonHiddenCount_append]
      show _ + nonHiddenCount (.br :: interBrNodes (l2 :: ls2)) = _
      have hbr : nonHiddenCount (.br :: interBrNodes (l2 :: ls2)) =
          1 + nonHiddenCount (interBrNodes (l2 :: ls2)) := by
        simp [nonHiddenCount, nodeCount]
      rw [hbr, ih]
      have hcount : nonHiddenCount (textOpt l) = l.length := by
        by_cases hl : l = [] <;> simp [textOpt, hl, nonHiddenCount, nodeCount]
      rw [hcount]
      simp only [List.map_cons, List.sum_cons, List.length_cons]
      omega

theorem interBr_ne_nil (lines : List Str) (hne : lines ≠ []) (hjoin : joinLines lines ≠ []) :
    interBrNodes lines ≠ [] := by
  cases lines with
  | nil => exact absurd rfl hne
  | cons l ls =>
    cases ls with
    | nil =>
      rw [interBrNodes, textOpt]
      have hl : l ≠ [] := by
        intro h
        exact hjoin (by simp [joinLines, h])
      simp [hl]
    | cons l2 ls2 =>
      rw [interBrNodes]
      rw [textOpt]
      by_cases hl : l = [] <;> simp [hl]

/-! ## Caret-walk lemmas -/

theorem totalLen_cons (lf : Leaf) (r : List Leaf) :
    totalLen (lf :: r) = lf.text.length + totalLen r := by
  simp [totalLen]

theorem walk_plain :
    ∀ (leaves : List Leaf), (∀ lf ∈ leaves, lf.usn = false) →
    ∀ o, o ≤ totalLen leaves →
    (leaves = [] ∧ o = 0) ∨
      ∃ p lf k, walkSet leaves o = some (p, lf, k) ∧ totalLen p + k = o := by
  intro leaves
  induction leaves with
  | nil =>
    intro _ o ho
    left
    exact ⟨rfl, Nat.le_zero.mp (by simpa [totalLen] using ho)⟩
  | cons lf r ih =>
    intro husn o ho
    right
    have hu : lf.usn = false := husn lf (List.mem_cons_self _ _)
    rw [walkSet, hu]
    simp only [Bool.false_eq_true, if_false]
    by_cases hlen : o ≤ lf.text.length
    · rw [if_pos hlen]
      exact ⟨[], lf, o, rfl, by simp [totalLen]⟩
    · rw [if_neg hlen]
      have hbound : o - lf.text.length ≤ totalLen r := by
        rw [totalLen_cons] at ho
        omega
      cases ih (fun x hx => husn x (List.mem_cons_of_mem lf hx)) (o - lf.text.length) hbound with
      | inl hempty =>
        obtain ⟨hr, hz⟩ := hempty
        subst hr
        simp [totalLen] at hbound
        omega
      | inr hfound =>
        obtain ⟨p, lf', k, hw, hsum⟩ := hfound
        refine ⟨lf :: p, lf', k, ?_, ?_⟩
        · rw [hw]
          rfl
        · rw [totalLen_cons]
          omega

/-! ## Plain-line rendering lemmas -/

theorem boldScan_none_of_no_star (s : Str) (h : ∀ c ∈ s, c ≠ '*') :
    boldScan s = none := by
  induction s with
  | nil => rfl
  | cons c r ih =>
    have hc : c ≠ '*' := h c (List.mem_cons_self c r)
    have ihr := ih (fun x hx => h x (List.mem_cons_of_mem c hx))
    simp [boldScan, hc, ihr]

theorem codeScan_none_of_no_tick (s : Str) (h : ∀ c ∈ s, c ≠ tickC) :
    codeScan s = none := by
  induction s with
  | nil => rfl
  | cons c r ih =>
    have hc : c ≠ tickC := h c (List.mem_cons_self c r)
    have ihr := ih (fun x hx => h x (List.mem_cons_of_mem c hx))
    simp [codeScan, hc, ihr]

theorem replaceBold_id (a : Bool) (s : Str) (h : boldScan s = none) :
    replaceBold a s = s := by
  cases hl : s.length with
  | zero => simp [replaceBold, hl, replaceBoldF]
  | succ n => simp [replaceBold, hl, replaceBoldF, h]

theorem replaceCode_id (a : Bool) (s : Str) (h : codeScan s = none) :
    replaceCode a s = s := by
  cases hl : s.length with
  | zero => simp [replaceCode, hl, replaceCodeF]
  | succ n => simp [replaceCode, hl, replaceCodeF, h]

theorem isHeadingLine_false_of_no_hash (line : Str) (h : ∀ c ∈ line, c ≠ '#') :
    isHeadingLine line = false := by
  cases line with
  | nil => rfl
  | cons c r =>
    cases r with
    | nil => rfl
    | cons c2 r2 =>
      have hc : c ≠ '#' := h c (List.mem_cons_self _ _)
      simp [isHeadingLine, hc]

/-- A line containing no `#`, `*` or backtick renders to itself
unchanged, whether active or not. -/
theorem renderMarkdownLine_plain (line : Str) (a : Bool)
    (h : ∀ c ∈ line, c ≠ '#' ∧ c ≠ '*' ∧ c ≠ tickC) :
    renderMarkdownLine line a = line := by
  have hh : isHeadingLine line = false :=
    isHeadingLine_false_of_no_hash line (fun c hc => (h c hc).1)
  have hb : boldScan line = none :=
    boldScan_none_of_no_star line (fun c hc => (h c hc).2.1)
  rw [renderMarkdownLine, hh]
  simp only [Bool.false_eq_true, if_false]
  rw [replaceBold_id a line hb,
    replaceCode_id a line (codeScan_none_of_no_tick line (fun c hc => (h c hc).2.2))]

theorem renderAll_plain (lines : List Str)
    (h : ∀ l ∈ lines, ∀ c ∈ l, c ≠ '#' ∧ c ≠ '*' ∧ c ≠ tickC) :
    ∀ i a, renderAll lines i a = lines := by
  induction lines with
  | nil => intro i a; rfl
  | cons l ls ih =>
    intro i a
    rw [renderAll, renderMarkdownLine_plain l _ (h l (List.mem_cons_self _ _)),
      ih (fun x hx => h x (List.mem_cons_of_mem l hx)) (i + 1) a]

/-! ## Claim theorems: C9, C7, C3, C5, C10 -/

/-- C9 — Line model round-trip: for every string `s`,
`join(split(s)) = s`, where `split` divides on `'\n'` preserving empty
lines, and a trailing newline produces a trailing empty line. -/
theorem lineModel_roundtrip :
    (∀ s : Str, joinLines (splitLines s) = s) ∧
    (∀ s : Str, splitLines (s ++ ['\n']) = splitLines s ++ [[]]) :=
  ⟨joinLines_splitLines, splitLines_trailing⟩

/-- C7 counterexample — the claim that every piece of text placed into a
presentation span is escaped is false: the heading line `"# <"` rendered
inactive puts the raw text `" <"` into the heading span, while escaping
would have produced `" &lt;"`. -/
theorem heading_text_unescaped :
    parseHTML (renderMarkdownLine (str "# <") false) =
      [.el (str "span") hashStyleInactive (str "#"),
       .el (str "span") headingTextStyle (str " <")] ∧
    escapeHTML (str " <") ≠ str " <" := by
  constructor
  · decide
  · decide

/-- C7 amended — only inline-code content is escaped: a line free of
markdown markers is rendered verbatim, markup-significant characters
included (no escaping is applied to plain, heading or bold text), while
the content of an inline-code match does pass through `escapeHTML`, as
witnessed by `` `&` `` rendering with `&amp;`. -/
theorem escaping_scope_spec :
    (∀ (line : Str) (a : Bool),
        (∀ c ∈ line, c ≠ '#' ∧ c ≠ '*' ∧ c ≠ tickC) →
        renderMarkdownLine line a = line) ∧
    containsSeq (str "&amp;") (renderMarkdownLine (tickC :: '&' :: [tickC]) false) = true := by
  exact ⟨renderMarkdownLine_plain, by decide⟩

/-- C7 witness — the amended theorem applied at the concrete line
`"a<b&c"`, which is rendered verbatim with its `<` and `&` unescaped. -/
theorem escaping_scope_spec_witness :
    renderMarkdownLine (str "a<b&c") true = str "a<b&c" :=
  escaping_scope_spec.1 (str "a<b&c") true (by decide)

theorem countNl_splitLines (s : Str) : (splitLines s).length = countNl s + 1 := by
  induction s with
  | nil => simp [splitLines, countNl]
  | cons c r ih =>
    simp only [splitLines]
    by_cases hc : c = '\n'
    · subst hc
      simp [countNl, List.count_cons, ih]
    · rw [if_neg hc]
      cases h : splitLines r with
      | nil => exact absurd h (splitLines_ne_nil r)
      | cons l ls =>
        have : countNl (c :: r) = countNl r := by
          simp [countNl, List.count_cons, hc]
        rw [this, consHead, ← ih, h]
        rfl

/-- C3 — Enter splitting: for any document and caret offset
`o ≤ length(d)`, the Enter handler produces `d[0..o) ++ "\n" ++ d[o..)`,
activates the line whose index is the number of newlines in `d[0..o)`
plus one — which is exactly the number of newlines in the new document
before position `o + 1`, i.e. the index of the line starting just after
the inserted newline — and places the caret at `o + 1`. -/
theorem handleEnter_spec (d : Str) (o : Nat) (ho : o ≤ d.length) :
    handleEnter d o =
      { newDoc := d.take o ++ '\n' :: d.drop o,
        newActiveIdx := countNl (d.take o) + 1,
        caret := o + 1 } ∧
    countNl ((d.take o ++ '\n' :: d.drop o).take (o + 1)) = countNl (d.take o) + 1 := by
  have hlen : (d.take o).length = o := by
    rw [List.length_take]
    omega
  have htake : (d.take o ++ '\n' :: d.drop o).take o = d.take o := by
    rw [List.take_append_eq_append_take, hlen, Nat.sub_self, List.take_zero,
      List.append_nil, List.take_take, min_self]
  constructor
  · rw [handleEnter]
    simp only [htake]
    have h3 := countNl_splitLines (d.take o)
    congr 1
    omega
  · rw [List.take_append_eq_append_take, hlen]
    have h1 : o + 1 - o = 1 := by omega
    have h2 : (d.take o).take (o + 1) = d.take o := by
      rw [List.take_take, min_comm, min_eq_left (by omega)]
    rw [h1, h2]
    simp [countNl, List.count_append, List.count_cons]

/-- C3 witness — the theorem at the concrete input of the claim:
document `"abc"`, caret offset 1 gives document `"a\nbc"`, new active
line index 1 and caret offset 2. -/
theorem handleEnter_spec_witness :
    handleEnter (str "abc") 1 = { newDoc := str "a\nbc", newActiveIdx := 1, caret := 2 } :=
  ((handleEnter_spec (str "abc") 1 (by decide)).1).trans (by decide)

/-- C5 counterexample — the guard and the reset stated by the claim are both false on the
code: with last externally loaded value `"a"` while the latest output of the controller is `"ab"` (held in `currentValue`) and active line index 1,
an incoming `"ab"` — an echo of the output the controller itself produced — IS adopted
(the claim says it is ignored), and the re-render keeps line index 1 (the
claim says the Active Line Index is reset to 0). -/
theorem valueSync_echo_adopted :
    (valueSyncEffect (str "ab") ⟨str "ab", str "a", 1, 2⟩).adopted = true ∧
    (valueSyncEffect (str "ab") ⟨str "ab", str "a", 1, 2⟩).renderedIdx = 1 ∧
    (valueSyncEffect (str "ab") ⟨str "ab", str "a", 1, 2⟩).state.activeLineIdx = 1 := by
  decide

/-- C5 amended — a replacement string is adopted exactly when it is
non-empty and differs from the last externally loaded value (an echo of the output the
controller itself produced is adopted as well when it differs from that
value); on adoption the document is replaced wholesale, the active line
index is left unchanged and used for the re-render, and the caret is
moved to the document end. -/
theorem valueSync_adopt_spec (v : Str) (s : SyncState)
    (h1 : v ≠ s.lastLoadedValue) (h2 : v ≠ []) :
    valueSyncEffect v s =
      { state := { currentValue := v, lastLoadedValue := v,
                   activeLineIdx := s.activeLineIdx,
                   lastCaretOffset := s.lastCaretOffset },
        adopted := true, renderedDoc := v, renderedIdx := s.activeLineIdx,
        caretTarget := v.length } := by
  rw [valueSyncEffect, if_pos ⟨h1, h2⟩]

/-- C5 witness — the amended theorem applied at the concrete incoming
value `"b"` against a state whose last loaded value is `"a"`. -/
theorem valueSync_adopt_spec_witness :
    valueSyncEffect (str "b") ⟨str "a", str "a", 0, 1⟩ =
      { state := ⟨str "b", str "b", 0, 1⟩, adopted := true,
        renderedDoc := str "b", renderedIdx := 0, caretTarget := 1 } :=
  (valueSync_adopt_spec (str "b") ⟨str "a", str "a", 0, 1⟩ (by decide) (by decide)).trans
    (by decide)

/-- C10 counterexample — a persisted snapshot that is the empty string
exists under the autosave key and differs from the initial value of the host,
`"x"`, yet it is not adopted (the `if (saved && ...)` guard rejects the
falsy empty string), contradicting the claimed "unconditionally replaces
its document with the snapshot" whenever a snapshot exists and differs. -/
theorem mount_empty_snapshot_skipped :
    (mountEffect (some []) (str "x")).adopted = false ∧ ([] : Str) ≠ str "x" := by
  decide

/-- C10 amended — startup snapshot adoption holds for a *non-empty*
persisted snapshot differing from the host-supplied initial value: the
editor replaces its document with the snapshot, renders it with line
index 0, moves the caret to the end of the snapshot and fires `onChange` with
the snapshot — before any user edit and with no host-controllable switch
in the `(value, onChange)` interface of the component to disable it. -/
theorem mount_adopt_spec (s v : Str) (hne : s ≠ []) (hdiff : s ≠ v) :
    mountEffect (some s) v =
      { adopted := true, doc := s, renderedIdx := some 0,
        caretTarget := some s.length, onChangeFired := some s } := by
  rw [mountEffect]
  simp [hne, hdiff]

/-- C10 witness — the amended theorem at snapshot `"saved"` against
initial value `"x"`. -/
theorem mount_adopt_spec_witness :
    mountEffect (some (str "saved")) (str "x") =
      { adopted := true, doc := str "saved", renderedIdx := some 0,
        caretTarget := some 5, onChangeFired := some (str "saved") } :=
  (mount_adopt_spec (str "saved") (str "x") (by decide) (by decide)).trans (by decide)

/-! ## Claim theorems: C4, C6 -/

/-- C4 counterexample — rendering `"# Heading"` inactive yields a
non-hidden character count of 8, not the claimed 7: the hash span is
hidden, but the heading span carries `line.slice(1) = " Heading"`, whose
leading space stays visible and counted. -/
theorem headingCount_inactive_ne_seven :
    nonHiddenCount (parseHTML (renderMarkdownLine (str "# Heading") false)) ≠ 7 := by
  decide

/-- C4 amended — rendering `"# Heading"` inactive yields a non-hidden
count of `length(" Heading") = 8` (only the `#` is suppressed; the space
after it remains), and rendering it active yields
`length("# Heading") = 9`. -/
theorem headingCount_values :
    nonHiddenCount (parseHTML (renderMarkdownLine (str "# Heading") false)) = 8 ∧
    nonHiddenCount (parseHTML (renderMarkdownLine (str "# Heading") true)) = 9 := by
  constructor
  · decide
  · decide

/-- C6 counterexample — the active render of `` `x` `` contains no
backtick character anywhere in its markup: the two faded marker spans
are emitted *empty*, so the only text leaf of the rendered tree is the code
text `"x"` — the backtick delimiters are not shown, contradicting the
claimed bold-style reveal behavior. -/
theorem inlineCode_no_delims :
    containsSeq [tickC] (renderMarkdownLine (tickC :: 'x' :: [tickC]) true) = false ∧
    leavesOfNodes (parseHTML (renderMarkdownLine (tickC :: 'x' :: [tickC]) true)) =
      [⟨['x'], false, false⟩] := by
  constructor
  · decide
  · decide

/-- C6 amended — for a `` `text` `` pair the active render emits two
*empty* faded marker spans flanking the code element (they carry the
marker styling but no backtick text), the inactive render omits the
delimiter spans entirely, and the code content passes through
`escapeHTML` in both cases (`` `<` `` renders with `&lt;`). -/
theorem inlineCode_render_spec :
    parseHTML (renderMarkdownLine (tickC :: 'x' :: [tickC]) true) =
      [.el (str "span") cueStyle [], .el (str "code") codeStyle ['x'],
       .el (str "span") cueStyle []] ∧
    parseHTML (renderMarkdownLine (tickC :: 'x' :: [tickC]) false) =
      [.el (str "code") codeStyle ['x']] ∧
    parseHTML (renderMarkdownLine (tickC :: ltC :: [tickC]) false) =
      [.el (str "code") codeStyle (str "&lt;")] ∧
    containsSeq (str "&lt;") (renderMarkdownLine (tickC :: ltC :: [tickC]) true) = true := by
  refine ⟨by decide, by decide, by decide, by decide⟩

/-! ## Claim theorems: C8 -/

/-- Scheduler invariant: at most one timer is live, and every live timer
is the one whose handle is stored in `autosaveTimeout`. -/
def SchedInv (s : SchedState) : Prop :=
  s.timers.length ≤ 1 ∧ ∀ tm ∈ s.timers, s.curTimeout = some tm.1

theorem schedInv_init : SchedInv initSched := by
  constructor <;> simp [initSched]

theorem schedInv_trigger (t : Nat) (v : Str) (s : SchedState) (h : SchedInv s) :
    SchedInv (triggerAutoSave t v s) := by
  obtain ⟨hlen, hcur⟩ := h
  have hcleared :
      (match s.curTimeout with
        | some h => s.timers.filter (fun tm => tm.1 ≠ h)
        | none => s.timers) = [] := by
    cases hc : s.curTimeout with
    | none =>
      cases ht : s.timers with
      | nil => simp
      | cons tm tms =>
        have := hcur tm (by rw [ht]; exact List.mem_cons_self _ _)
        rw [hc] at this
        exact absurd this (by simp)
    | some hdl =>
      simp only []
      rw [List.filter_eq_nil_iff]
      intro tm htm
      have := hcur tm htm
      rw [hc] at this
      simp at this
      simp [this]
  constructor
  · rw [triggerAutoSave]
    rw [hcleared]
    simp
  · intro tm htm
    rw [triggerAutoSave] at htm ⊢
    rw [hcleared] at htm
    simp only [List.nil_append, List.mem_singleton] at htm
    simp [htm]

theorem schedInv_advance (t : Nat) (s : SchedState) (h : SchedInv s) :
    SchedInv (advanceTo t s) := by
  obtain ⟨hlen, hcur⟩ := h
  constructor
  · rw [advanceTo]
    exact le_trans (List.length_filter_le _ _) hlen
  · intro tm htm
    rw [advanceTo] at htm
    simp only [List.mem_filter] at htm
    exact hcur tm htm.1

theorem schedInv_run (evs : List SaveEvent) (s : SchedState) (h : SchedInv s) :
    SchedInv (runSched evs s) := by
  induction evs generalizing s with
  | nil => exact h
  | cons e es ih =>
    cases e with
    | notify t v => exact ih _ (schedInv_trigger t v _ (schedInv_advance t s h))
    | advance t => exact ih _ (schedInv_advance t s h)

/-- C8 — Autosave debounce coalescing: three `notify` calls with values
`A`, `B`, `C` inside one debounce window (each arriving before the 1000 ms
deadline of the first call) produce exactly one persisted write, of `C`,
once time passes the last deadline; and over any event trace at most one
debounce timer is ever live, each new `notify` clearing the previous one
so the pending value is always the most recent. -/
theorem autosave_debounce_spec (t1 t2 t3 T : Nat) (A B C : Str)
    (h12 : t1 ≤ t2) (_h23 : t2 ≤ t3)
    (hw2 : t2 < t1 + 1000) (hw3 : t3 < t1 + 1000) (hT : t3 + 1000 ≤ T) :
    (runSched [.notify t1 A, .notify t2 B, .notify t3 C, .advance T] initSched).writes
        = [C] ∧
    (runSched [.notify t1 A, .notify t2 B, .notify t3 C, .advance T] initSched).stored
        = some C ∧
    ∀ evs : List SaveEvent, (runSched evs initSched).timers.length ≤ 1 := by
  have e2 : ¬ (t1 + 1000 ≤ t2) := by omega
  have e3 : ¬ (t2 + 1000 ≤ t3) := by omega
  have eT : t3 + 1000 ≤ T := hT
  refine ⟨?_, ?_, fun evs => (schedInv_run evs initSched schedInv_init).1⟩ <;>
    simp [runSched, advanceTo, triggerAutoSave, initSched, e2, e3, eT]

/-- C8 witness — the theorem at concrete times 0, 100, 200 (all within
the 1000 ms window of the first call) with the deadline passed at 1500:
exactly one write occurs and it writes `"C"`. -/
theorem autosave_debounce_spec_witness :
    (runSched [.notify 0 (str "A"), .notify 100 (str "B"), .notify 200 (str "C"),
        .advance 1500] initSched).writes = [str "C"] :=
  (autosave_debounce_spec 0 100 200 1500 (str "A") (str "B") (str "C")
    (by omega) (by omega) (by omega) (by omega) (by omega)).1

/-! ## Claim theorems: C1, C2 -/

/-- Characters that trigger no markdown construct and no HTML-significant
behavior: rendering and parsing treat lines made of such characters as
literal text (`&` is excluded because the browser would decode character
entities, which the tree model deliberately does not implement). -/
def PlainChar (c : Char) : Prop :=
  c ≠ '#' ∧ c ≠ '*' ∧ c ≠ tickC ∧ c ≠ ltC ∧ c ≠ '&'

instance (c : Char) : Decidable (PlainChar c) := by
  unfold PlainChar
  infer_instance

/-- C1 counterexample — the offset round trip is not the identity: the
two walks disagree on `user-select:none` marker leaves (skipped when
placing the caret, counted when reading it back), so for document
`"# H"` with Active Line Index 0 the round trip of offset 0 returns 1;
and offsets addressing positions past the last text node (e.g. offset 2
of `"a\n"`, after the trailing line break) fall back to the end of the
text and return 1. -/
theorem caretRoundTrip_not_id :
    caretRoundTrip (str "# H") 0 0 ≠ 0 ∧ caretRoundTrip (str "a\n") 0 2 ≠ 2 := by
  constructor
  · decide
  · decide

/-- C1 amended — the round trip `toOffset (toSelectionPoint rendered o)`
returns `o` for every non-empty document consisting of characters that
trigger no markdown construct or markup (no `#`, `*`, backtick, `<`,
`&`), any Active Line Index, and every offset up to the document length
minus its newline count (the `<br>` line separators carry no text node,
so offsets beyond the last text character fall back to the text end);
hidden marker leaves are skipped only by `toSelectionPoint` — `toOffset`
counts them, which is what breaks the round trip on marked-up lines. -/
theorem caretRoundTrip_plain (d : Str) (idx o : Nat) (hne : d ≠ [])
    (hplain : ∀ c ∈ d, PlainChar c) (ho : o + countNl d ≤ d.length) :
    caretRoundTrip d idx o = o := by
  have hlplain : ∀ l ∈ splitLines d, ∀ c ∈ l, PlainChar c :=
    fun l hl c hc => hplain c (mem_of_mem_splitLines d l hl c hc)
  have hrender : renderAll (splitLines d) 0 idx = splitLines d :=
    renderAll_plain (splitLines d)
      (fun l hl c hc =>
        ⟨(hlplain l hl c hc).1, (hlplain l hl c hc).2.1, (hlplain l hl c hc).2.2.1⟩) 0 idx
  have hnodes : parseHTML (markdownToHTML d idx) = interBrNodes (splitLines d) := by
    rw [markdownToHTML, hrender]
    exact parse_plain_brJoin (splitLines d)
      (fun l hl c hc => (hlplain l hl c hc).2.2.2.1)
  have husn : ∀ lf ∈ leavesOfNodes (interBrNodes (splitLines d)), lf.usn = false :=
    leaves_interBr_usn (splitLines d)
  have htot : totalLen (leavesOfNodes (interBrNodes (splitLines d)))
      = ((splitLines d).map List.length).sum := totalLen_interBr (splitLines d)
  have hsum := sum_splitLines d
  have hoS : o ≤ totalLen (leavesOfNodes (interBrNodes (splitLines d))) := by
    rw [htot]; omega
  rw [caretRoundTrip]
  simp only [hnodes]
  cases walk_plain (leavesOfNodes (interBrNodes (splitLines d))) husn o hoS with
  | inl hempty =>
    obtain ⟨hleaves, ho0⟩ := hempty
    have hnn : interBrNodes (splitLines d) ≠ [] :=
      interBr_ne_nil (splitLines d) (splitLines_ne_nil d)
        (by rw [joinLines_splitLines]; exact hne)
    rw [setCaretModel, hleaves]
    simp only [walkSet, if_neg hnn]
    simp [getCaretModel, totalLen, ho0]
  | inr hfound =>
    obtain ⟨p, lf, k, hw, hksum⟩ := hfound
    rw [setCaretModel, hw, getCaretModel, hksum]

/-- C1 witness — the amended theorem at the plain document
`"hello\nworld"` with Active Line Index 0 and offset 7. -/
theorem caretRoundTrip_plain_witness : caretRoundTrip (str "hello\nworld") 0 7 = 7 :=
  caretRoundTrip_plain (str "hello\nworld") 0 7 (by decide) (by decide) (by decide)

/-- C2 counterexample — the rendered-count invariant fails on hidden
heading markers: the document `"# Heading"` (length 9) rendered with
Active Line Index 1 (the heading line inactive) carries only 8
non-hidden characters, because the hash marker is a `visibility:hidden`
leaf and contributes nothing. -/
theorem nonHiddenCount_heading_ne_length :
    nonHiddenCount (parseHTML (markdownToHTML (str "# Heading") 1)) ≠
      (str "# Heading").length := by
  decide

/-- C2 amended — the rendered-count invariant holds for documents free
of markdown markers and markup-significant characters: for such a
document and any fixed Active Line Index, the characters carried by
non-hidden parts of the rendered fragment (its text leaves plus one
newline per `<br>` separator) total exactly `length(Document)`.  Hidden
heading hashes, omitted inactive bold delimiters, and the always-omitted
backticks each make the rendered count fall short. -/
theorem nonHiddenCount_plain (d : Str) (idx : Nat)
    (hplain : ∀ c ∈ d, PlainChar c) :
    nonHiddenCount (parseHTML (markdownToHTML d idx)) = d.length := by
  have hlplain : ∀ l ∈ splitLines d, ∀ c ∈ l, PlainChar c :=
    fun l hl c hc => hplain c (mem_of_mem_splitLines d l hl c hc)
  have hrender : renderAll (splitLines d) 0 idx = splitLines d :=
    renderAll_plain (splitLines d)
      (fun l hl c hc =>
        ⟨(hlplain l hl c hc).1, (hlplain l hl c hc).2.1, (hlplain l hl c hc).2.2.1⟩) 0 idx
  have hnodes : parseHTML (markdownToHTML d idx) = interBrNodes (splitLines d) := by
    rw [markdownToHTML, hrender]
    exact parse_plain_brJoin (splitLines d)
      (fun l hl c hc => (hlplain l hl c hc).2.2.2.1)
  rw [hnodes, nonHiddenCount_interBr (splitLines d), countNl_splitLines d]
  have hsum := sum_splitLines d
  omega

/-- C2 witness — the amended theorem at the plain two-line document
`"hello\nworld"` with Active Line Index 0: the rendered fragment carries
exactly 11 non-hidden characters. -/
theorem nonHiddenCount_plain_witness :
    nonHiddenCount (parseHTML (markdownToHTML (str "hello\nworld") 0)) =
      (str "hello\nworld").length :=
  nonHiddenCount_plain (str "hello\nworld") 0 (by decide)

end Lipi
